import Mathlib

/-!
Verification of `distributed_map.hpp` (bliss::index distributed maps).

The file shallow-embeds the distributed map/multimap/counting-map core:

* `CommLayerModel` / `MapBase` model one rank's `_distributed_map_base`
  object: the communication layer (communicator size plus the outbox of
  key messages sent through `sendMessage`), the hash function, the local
  container and the pending/callback flags.
* `DistSystem` models the collective view: `commSize` ranks, each holding
  the local container of its `_distributed_map_base` instance.
* Local containers are embedded as lists: `std::unordered_multimap<K,T>`
  as `List (K × T)` (insert appends to the container, order within the
  container is unspecified and all statements are order-insensitive),
  and `std::unordered_map<K, count_t>` as an association list
  `List (K × Nat)` with one entry per key, values reduced modulo 2^32
  because `count_t` is `uint32_t`.
-/

namespace Bliss

/-- MPI message tag for inserts (`INSERT_MPI_TAG = 13`). -/
def INSERT_MPI_TAG : Nat := 13

/-- MPI message tag for lookup queries (`LOOKUP_MPI_TAG = 14`). -/
def LOOKUP_MPI_TAG : Nat := 14

/-- MPI message tag for answers to lookup queries (`LOOKUP_ANSWER_MPI_TAG = 15`). -/
def LOOKUP_ANSWER_MPI_TAG : Nat := 15

/-- Modulus of `count_t = uint32_t`, the value type of the counting map. -/
def UINT32_MOD : Nat := 4294967296

/-- Value of `std::numeric_limits<int>::max()` on the targeted platforms. -/
def INT_MAX : Nat := 2147483647

/-- Model of the communication layer as seen by `_distributed_map_base`:
the communicator size (`getCommSize`) and the outbox of key messages sent
through `sendMessage` from `sendKey`, recorded as (key, dstRank, tag). -/
structure CommLayerModel (K : Type) where
  commSize : Nat
  keyMsgs : List (K × Nat × Nat)

/-- The communication layer's `getCommSize()`. -/
def CommLayerModel.getCommSize {K : Type} (cl : CommLayerModel K) : Nat :=
  cl.commSize

/-- The communication layer's `sendMessage(msg, count, dstRank, tag)` for a
message holding a single key: the message is appended to the outbox. -/
def CommLayerModel.sendKeyMessage {K : Type} (cl : CommLayerModel K)
    (key : K) (dstRank : Nat) (tag : Nat) : CommLayerModel K :=
  { cl with keyMsgs := cl.keyMsgs ++ [(key, dstRank, tag)] }

/-- One rank's `_distributed_map_base` object: communication layer, hash
function used for distribution, local container, the two pending flags, and
whether `lookupAnswerCallbackFunc` has been set (it is a null
`std::function` until `setLookupAnswerCallback` is called). -/
structure MapBase (K T : Type) where
  commLayer : CommLayerModel K
  hashFunct : K → Nat
  local_map : List (K × T)
  has_pending_inserts : Bool
  has_pending_lookups : Bool
  lookupAnswerCallbackSet : Bool

/-- `_distributed_map_base::getTargetRank`:
`int size = commLayer.getCommSize(); return hashFunct(key) % size;`. -/
def getTargetRank {K T : Type} (st : MapBase K T) (key : K) : Nat :=
  st.hashFunct key % st.commLayer.getCommSize

/-- `_distributed_map_base::sendKey`: serializes the key and sends it as a
message with the given tag to `dstRank`. -/
def sendKey {K T : Type} (st : MapBase K T) (key : K) (dstRank : Nat)
    (tag : Nat) : MapBase K T :=
  { st with commLayer := st.commLayer.sendKeyMessage key dstRank tag }

/-- `_distributed_map_base::asyncLookup`: throws a `std::runtime_error` when
the lookup-answer callback is not set (the C++ object is left untouched by
the throw); otherwise sends the key to `getTargetRank(key)` with
`LOOKUP_MPI_TAG` and sets `has_pending_lookups`.  The returned boolean
records whether the exception was thrown. -/
def asyncLookup {K T : Type} (st : MapBase K T) (key : K) :
    MapBase K T × Bool :=
  if st.lookupAnswerCallbackSet = false then
    (st, true)
  else
    let targetRank := getTargetRank st key
    ({ sendKey st key targetRank LOOKUP_MPI_TAG with
        has_pending_lookups := true }, false)

/-- `std::unordered_multimap<K,T>::insert`: appends the pair to the
container (one more element with that key; nothing is replaced). -/
def insertLocal {K T : Type} (lm : List (K × T)) (e : K × T) : List (K × T) :=
  lm ++ [e]

/-- `distributed_multimap::receivedInsertCallback`: deserializes
`count / sizeof(std::pair<K,T>)` elements and inserts each of them into the
local container in order.  Defect in the source: the multimap constructor
(part_001:346-348) registers the nonexistent member
`distributed_multimap::receivedCountCallback` for `INSERT_MPI_TAG` (a
copy-paste of the counting-map constructor, part_001:444-446, where that
member exists), so in the source this callback is registered nowhere and
instantiating `distributed_multimap` is ill-formed.  This definition embeds
the handler as written at part_001:403-414. -/
def receivedInsertCallback {K T : Type} (lm : List (K × T))
    (elements : List (K × T)) : List (K × T) :=
  elements.foldl insertLocal lm

/-- `_distributed_map_base::receivedLookupCallback`: deserializes
`count / sizeof(K)` query keys and, for each of them in order, walks
`local_map.equal_range(key)` and sends every matching (key,value) pair back
to the requesting rank with `LOOKUP_ANSWER_MPI_TAG`.  The result list is the
sequence of answer pairs sent back. -/
def receivedLookupCallback {K T : Type} [DecidableEq K] (lm : List (K × T))
    (keys : List K) : List (K × T) :=
  keys.flatMap (fun k => lm.filter (fun p => decide (p.1 = k)))

/-- The collective view of a distributed map: the communicator size, the
shared hash function, and the local container held by each rank. -/
structure DistSystem (K T : Type) where
  commSize : Nat
  hashFunct : K → Nat
  locals : Nat → List (K × T)

/-- `getTargetRank` at the system level: the rank owning a key. -/
def getTargetRankSys {K T : Type} (sys : DistSystem K T) (key : K) : Nat :=
  sys.hashFunct key % sys.commSize

/-- `distributed_multimap::populate(begin, end)` followed by the flush: every
pair of the batch is sent to `getTargetRank(pair.first)` with
`INSERT_MPI_TAG`, and each rank's `receivedInsertCallback` inserts the pairs
routed to it into its local container.  The delivery to
`receivedInsertCallback` is the wiring the spec documents; in the source it
never happens, because the multimap constructor registers the nonexistent
`receivedCountCallback` for `INSERT_MPI_TAG` (see
`receivedInsertCallback`), so this definition models the intended, repaired
wiring. -/
def populate {K T : Type} [DecidableEq K] (sys : DistSystem K T)
    (batch : List (K × T)) : DistSystem K T :=
  { sys with
    locals := fun r =>
      receivedInsertCallback (sys.locals r)
        (batch.filter (fun p => decide (getTargetRankSys sys p.1 = r))) }

/-- A batch of `asyncLookup` calls followed by the flush: each query key is
sent to `getTargetRank(key)` with `LOOKUP_MPI_TAG`, every rank runs
`receivedLookupCallback` on the query keys routed to it, and the issuing
rank gathers all answer pairs (grouped by answering rank). -/
def lookupAll {K T : Type} [DecidableEq K] (sys : DistSystem K T)
    (qs : List K) : List (K × T) :=
  (List.range sys.commSize).flatMap (fun r =>
    receivedLookupCallback (sys.locals r)
      (qs.filter (fun k => decide (getTargetRankSys sys k = r))))

/-! ### Generic counting helpers -/

/-- Folding `insertLocal` over a list of elements appends them. -/
theorem foldl_insertLocal {K T : Type} (elements : List (K × T)) :
    ∀ lm : List (K × T), elements.foldl insertLocal lm = lm ++ elements := by
  induction elements with
  | nil => intro lm; simp
  | cons e t ih =>
      intro lm
      simp [insertLocal, ih]

/-- Occurrence count distributes over `flatMap` as a sum. -/
theorem count_flatMap {α β : Type} [BEq α] (x : α) (l : List β)
    (f : β → List α) :
    (l.flatMap f).count x = (l.map (fun b => (f b).count x)).sum := by
  induction l with
  | nil => simp
  | cons b t ih => simp [List.count_append, ih]

/-- Occurrence count in a filtered list, as an `if` on the predicate. -/
theorem count_filter_ite {α : Type} [BEq α] [LawfulBEq α] (x : α)
    (l : List α) (p : α → Bool) :
    (l.filter p).count x = if p x then l.count x else 0 := by
  induction l with
  | nil => simp
  | cons a t ih =>
      by_cases hpa : p a
      · by_cases hax : a = x
        · subst hax
          simp [List.filter_cons, hpa, List.count_cons, ih]
        · simp [List.filter_cons, hpa, List.count_cons, hax, ih]
      · by_cases hax : a = x
        · subst hax
          simp [List.filter_cons, hpa, List.count_cons, ih]
        · simp [List.filter_cons, hpa, List.count_cons, hax, ih]

/-- Summing `if a = k then c else 0` over a list counts occurrences of `a`. -/
theorem sum_map_ite_eq {α : Type} [DecidableEq α] (a : α) (l : List α)
    (c : Nat) :
    (l.map (fun k => if a = k then c else 0)).sum = l.count a * c := by
  induction l with
  | nil => simp
  | cons b t ih =>
      by_cases hab : a = b
      · subst hab
        simp [List.count_cons, ih, Nat.add_mul, Nat.add_comm]
      · have hba : ¬ b = a := fun h => hab h.symm
        simp [List.count_cons, hab, hba, ih]

/-- Summing `if t = r then c else 0` over `range n` tests `t < n`. -/
theorem sum_range_ite_eq (t c n : Nat) :
    ((List.range n).map (fun r => if t = r then c else 0)).sum
      = if t < n then c else 0 := by
  induction n with
  | zero => simp
  | succ m ih =>
      by_cases htm : t = m
      · subst htm
        simp [List.range_succ, ih]
      · rcases Nat.lt_or_ge t m with hlt | hge
        · have : t < m + 1 := Nat.lt_succ_of_lt hlt
          simp [List.range_succ, ih, hlt, this, htm]
        · have h1 : ¬ t < m := Nat.not_lt.mpr hge
          have h2 : ¬ t < m + 1 := by
            intro hc
            exact htm (Nat.le_antisymm (Nat.lt_succ_iff.mp hc) hge)
          simp [List.range_succ, ih, h1, h2, htm]

/-! ### Claim theorems (routing, insert callback, lookup edge cases) -/

/-- C4: for every key, the rank chosen to own the key equals the configured
hash of the key reduced modulo the communicator size:
`getTargetRank(key) = hashFunct(key) mod P`. -/
theorem getTargetRank_eq_hash_mod {K T : Type} (st : MapBase K T) (key : K) :
    getTargetRank st key = st.hashFunct key % st.commLayer.commSize := rfl

/-- C5: key-to-rank routing is deterministic: two `getTargetRank` calls on
map objects with the same hash function and the same communicator size
(in particular two calls on the same object, whatever its container or
flag state) return the same rank. -/
theorem getTargetRank_deterministic {K T : Type} (st st' : MapBase K T)
    (key : K) (hh : st.hashFunct = st'.hashFunct)
    (hs : st.commLayer.commSize = st'.commLayer.commSize) :
    getTargetRank st key = getTargetRank st' key := by
  simp [getTargetRank, CommLayerModel.getCommSize, hh, hs]

/-- Witness for C5: two concrete map objects that differ in their local
container, pending flags and outbox but share hash function and
communicator size route the key 5 identically. -/
theorem getTargetRank_deterministic_witness :
    (MapBase.mk (CommLayerModel.mk 3 []) (fun n => n + 1) [] false false false
        : MapBase Nat Nat).hashFunct
      = (MapBase.mk (CommLayerModel.mk 3 [(0, 1, 14)]) (fun n => n + 1)
          [(2, 9)] true true true).hashFunct
    ∧ (MapBase.mk (CommLayerModel.mk 3 []) (fun n => n + 1) [] false false
        false : MapBase Nat Nat).commLayer.commSize
      = (MapBase.mk (CommLayerModel.mk 3 [(0, 1, 14)]) (fun n => n + 1)
          [(2, 9)] true true true).commLayer.commSize
    ∧ getTargetRank (MapBase.mk (CommLayerModel.mk 3 []) (fun n => n + 1) []
          false false false : MapBase Nat Nat) 5
      = getTargetRank (MapBase.mk (CommLayerModel.mk 3 [(0, 1, 14)])
          (fun n => n + 1) [(2, 9)] true true true) 5 :=
  ⟨rfl, rfl,
    getTargetRank_deterministic _ _ 5 rfl rfl⟩

/-- C9: `asyncLookup` throws exactly when the lookup-answer callback is not
set; in that case nothing is sent and the object is unchanged, and otherwise
the key is sent to `getTargetRank(key)` with `LOOKUP_MPI_TAG` and the
pending-lookup flag is set. -/
theorem asyncLookup_spec {K T : Type} (st : MapBase K T) (key : K) :
    (asyncLookup st key).2 = !st.lookupAnswerCallbackSet
    ∧ (asyncLookup st key).1
      = if st.lookupAnswerCallbackSet then
          { st with
            commLayer :=
              { st.commLayer with
                keyMsgs := st.commLayer.keyMsgs
                  ++ [(key, getTargetRank st key, LOOKUP_MPI_TAG)] },
            has_pending_lookups := true }
        else st := by
  cases h : st.lookupAnswerCallbackSet with
  | false => simp [asyncLookup, h]
  | true => simp [asyncLookup, h, sendKey, CommLayerModel.sendKeyMessage]

/-- C3 (the handler itself; its wiring in the source is broken): the
multimap insert callback, as written at part_001:403-414, appends and never
replaces: the local container grows by exactly the number of received
pairs, and every pair keeps its previous multiplicity (so all previously
stored pairs are still present).  The claim's premise that received inserts
are handled by this callback fails in the source: the constructor registers
the nonexistent `receivedCountCallback` for `INSERT_MPI_TAG`, leaving this
callback unregistered and the class ill-formed on instantiation. -/
theorem receivedInsertCallback_appends {K T : Type} [DecidableEq K]
    [DecidableEq T] (lm elements : List (K × T)) (p : K × T) :
    (receivedInsertCallback lm elements).length
        = lm.length + elements.length
    ∧ (receivedInsertCallback lm elements).count p
        = lm.count p + elements.count p := by
  constructor
  · simp [receivedInsertCallback, foldl_insertLocal]
  · simp [receivedInsertCallback, foldl_insertLocal, List.count_append]

/-- C8: a lookup batch against an empty local container answers nothing, and
an empty lookup batch answers nothing; both cases are ordinary returns of
the (total) callback, with no error path. -/
theorem receivedLookupCallback_empty {K T : Type} [DecidableEq K]
    (lm : List (K × T)) (keys : List K) :
    receivedLookupCallback ([] : List (K × T)) keys = []
    ∧ receivedLookupCallback lm [] = [] := by
  constructor
  · simp [receivedLookupCallback]
  · simp [receivedLookupCallback]

/-! ### Counting map (`distributed_counting_map`) -/

/-- Association-list lookup in the embedded `std::unordered_map<K,count_t>`:
the stored value for a key, if present. -/
def valueOf {K : Type} [DecidableEq K] (m : List (K × Nat)) (k : K) :
    Option Nat :=
  match m with
  | [] => none
  | (k', v) :: t => if k = k' then some v else valueOf t k

/-- `local_map[key]++` on `std::unordered_map<K, count_t>`: `operator[]`
value-initializes a missing entry to 0, then `++` increments the `uint32_t`
value (wrapping modulo 2^32). -/
def mapIncr {K : Type} [DecidableEq K] (m : List (K × Nat)) (k : K) :
    List (K × Nat) :=
  match m with
  | [] => [(k, (0 + 1) % UINT32_MOD)]
  | (k', v) :: t =>
      if k = k' then (k', (v + 1) % UINT32_MOD) :: t
      else (k', v) :: mapIncr t k

/-- `distributed_counting_map::receivedCountCallback`: deserializes
`count / sizeof(K)` keys and executes `local_map[keys[i]]++` for each of
them in order. -/
def receivedCountCallback {K : Type} [DecidableEq K] (m : List (K × Nat))
    (keys : List K) : List (K × Nat) :=
  keys.foldl mapIncr m

/-- Incrementing a key leaves every other key's stored value unchanged. -/
theorem valueOf_mapIncr_ne {K : Type} [DecidableEq K] (m : List (K × Nat))
    (k k' : K) (h : k' ≠ k) : valueOf (mapIncr m k) k' = valueOf m k' := by
  induction m with
  | nil => simp [mapIncr, valueOf, h]
  | cons e t ih =>
      obtain ⟨a, v⟩ := e
      by_cases hk : k = a
      · subst hk
        simp [mapIncr, valueOf, h]
      · by_cases hk' : k' = a
        · simp [mapIncr, valueOf, hk, hk']
        · simp [mapIncr, valueOf, hk, hk', ih]

/-- Incrementing a key stores its previous value (0 when absent) plus one,
reduced modulo 2^32. -/
theorem valueOf_mapIncr_self {K : Type} [DecidableEq K] (m : List (K × Nat))
    (k : K) :
    valueOf (mapIncr m k) k = some (((valueOf m k).getD 0 + 1) % UINT32_MOD)
    := by
  induction m with
  | nil => simp [mapIncr, valueOf]
  | cons e t ih =>
      obtain ⟨a, v⟩ := e
      by_cases hk : k = a
      · subst hk
        simp [mapIncr, valueOf]
      · simp [mapIncr, valueOf, hk, ih]

/-- Running the count callback adds the key's number of occurrences to its
stored value, modulo 2^32; a key not in the batch keeps its entry. -/
theorem valueOf_receivedCountCallback {K : Type} [DecidableEq K]
    (keys : List K) :
    ∀ m : List (K × Nat), ∀ k : K,
      valueOf (receivedCountCallback m keys) k
        = if keys.count k = 0 then valueOf m k
          else some (((valueOf m k).getD 0 + keys.count k) % UINT32_MOD) := by
  induction keys with
  | nil => intro m k; simp [receivedCountCallback]
  | cons a t ih =>
      intro m k
      have step : receivedCountCallback m (a :: t)
          = receivedCountCallback (mapIncr m a) t := rfl
      rw [step, ih (mapIncr m a) k]
      by_cases hak : a = k
      · subst hak
        rw [valueOf_mapIncr_self m a]
        by_cases ht : t.count a = 0
        · simp [List.count_cons, ht]
        · have hc : (a :: t).count a = t.count a + 1 := by
            simp [List.count_cons]
          simp only [hc, ht, Option.getD_some]
          have hmod : ((((valueOf m a).getD 0 + 1) % UINT32_MOD + t.count a)
              % UINT32_MOD)
              = (((valueOf m a).getD 0 + 1 + t.count a) % UINT32_MOD) :=
            Nat.mod_add_mod _ _ _
          simp [Nat.add_right_comm, hmod, Nat.add_assoc, Nat.add_comm,
            Nat.add_left_comm]
      · have hne : k ≠ a := fun h => hak h.symm
        rw [valueOf_mapIncr_ne m a k hne]
        simp [List.count_cons, hak]

/-- C2 counterexample: inserting the key 0 exactly 2^32 times stores the
wrapped `uint32_t` count 0, not 2^32, because `count_t` is 32 bits. -/
theorem countingMap_wraparound :
    valueOf
        (receivedCountCallback ([] : List (Nat × Nat))
          (List.replicate 4294967296 (0 : Nat))) 0
      = some 0
    ∧ some (0 : Nat) ≠ some (4294967296 : Nat) := by
  have h1 := valueOf_receivedCountCallback
    (List.replicate 4294967296 (0 : Nat)) ([] : List (Nat × Nat)) 0
  rw [List.count_replicate_self 0 4294967296] at h1
  rw [if_neg (by norm_num)] at h1
  constructor
  · rw [h1]
    norm_num [valueOf, UINT32_MOD]
  · simp

/-- C2 (amended): starting from an empty counting-map shard, after the count
callback processes a batch of bare keys, the stored count of every key
occurring in the batch is its number of occurrences reduced modulo 2^32
(`count_t` is `uint32_t`); in particular it is exactly n whenever n < 2^32,
e.g. 3 after inserting a key three times. -/
theorem countingMap_count {K : Type} [DecidableEq K] (keys : List K) (k : K)
    (h : k ∈ keys) :
    valueOf (receivedCountCallback ([] : List (K × Nat)) keys) k
      = some (keys.count k % UINT32_MOD) := by
  rw [valueOf_receivedCountCallback keys ([] : List (K × Nat)) k]
  have hc : keys.count k ≠ 0 := by
    simpa [List.count_eq_zero] using h
  simp [valueOf, hc]

/-- Witness for C2 (amended): inserting the key 7 three times (with another
key interleaved) stores the count 3. -/
theorem countingMap_count_witness :
    (7 : Nat) ∈ [7, 5, 7, 7]
    ∧ valueOf
        (receivedCountCallback ([] : List (Nat × Nat)) [7, 5, 7, 7]) 7
      = some (([7, 5, 7, 7] : List Nat).count 7 % UINT32_MOD)
    ∧ ([7, 5, 7, 7] : List Nat).count 7 % UINT32_MOD = 3 :=
  ⟨by decide, countingMap_count [7, 5, 7, 7] 7 (by decide),
    by decide⟩

/-! ### Lookup callback answer multiplicities (C6) -/

/-- The lookup callback answers each query-key occurrence independently:
a pair is sent back once per (occurrence of its key in the received batch,
matching local entry). -/
theorem count_receivedLookupCallback {K T : Type} [DecidableEq K]
    [DecidableEq T] (lm : List (K × T)) (keys : List K) (p : K × T) :
    (receivedLookupCallback lm keys).count p = keys.count p.1 * lm.count p
    := by
  rw [receivedLookupCallback, count_flatMap]
  have hmap : (keys.map fun k => (lm.filter fun q => decide (q.1 = k)).count p)
      = keys.map fun k => if p.1 = k then lm.count p else 0 := by
    apply List.map_congr_left
    intro k _
    rw [count_filter_ite]
    by_cases hpk : p.1 = k
    · simp [hpk]
    · simp [hpk]
  rw [hmap, sum_map_ite_eq]

/-- C6 counterexample: a batch that queries the key 0 twice makes the
callback send the single matching local pair (0,7) twice, not exactly once.
-/
theorem receivedLookupCallback_duplicate_query :
    receivedLookupCallback [((0 : Nat), (7 : Nat))] [0, 0]
      = [(0, 7), (0, 7)]
    ∧ (receivedLookupCallback [((0 : Nat), (7 : Nat))] [0, 0]).count (0, 7)
      ≠ 1 := by
  constructor
  · rfl
  · decide

/-- C6 (amended): for every received batch of pairwise-distinct query keys,
the lookup callback sends back exactly one answer pair for each local
(key,value) pair whose key equals a queried key, and sends nothing for keys
with no local match (every pair's answer multiplicity is its local
multiplicity when its key is queried, 0 otherwise). -/
theorem receivedLookupCallback_nodup_count {K T : Type} [DecidableEq K]
    [DecidableEq T] (lm : List (K × T)) (keys : List K) (hnd : keys.Nodup)
    (p : K × T) :
    (receivedLookupCallback lm keys).count p
      = if p.1 ∈ keys then lm.count p else 0 := by
  rw [count_receivedLookupCallback]
  by_cases hmem : p.1 ∈ keys
  · rw [List.count_eq_one_of_mem hnd hmem]
    simp [hmem]
  · rw [List.count_eq_zero_of_not_mem hmem]
    simp [hmem]

/-- Witness for C6 (amended): with local container [(0,7),(0,8),(1,9)] and
the duplicate-free query batch [0,2], the pair (0,7) is answered exactly
once, matching its local multiplicity. -/
theorem receivedLookupCallback_nodup_count_witness :
    ([0, 2] : List Nat).Nodup
    ∧ (receivedLookupCallback [((0 : Nat), (7 : Nat)), (0, 8), (1, 9)]
          [0, 2]).count (0, 7)
      = if (0 : Nat) ∈ ([0, 2] : List Nat) then
          ([((0 : Nat), (7 : Nat)), (0, 8), (1, 9)] : List (Nat × Nat)).count
            (0, 7)
        else 0 :=
  ⟨by decide,
    receivedLookupCallback_nodup_count [(0, 7), (0, 8), (1, 9)] [0, 2]
      (by decide) (0, 7)⟩

/-! ### Raw-byte serialization of pairs across the message boundary (C7) -/

/-- A batch of `sendPair` calls to one destination: each pair is
reinterpreted as its `sizeof(std::pair<K,T>)` raw bytes (`enc`), and the
comm layer concatenates the per-pair messages into one buffer. -/
def serializePairs {K T : Type} (enc : K × T → List Nat)
    (ps : List (K × T)) : List Nat :=
  ps.flatMap enc

/-- The element loop of `receivedLookupAnswerCallback`: reads `n` elements,
each reinterpreted from the next `size` bytes of the message. -/
def deserializeLoop {K T : Type} (size : Nat) (dec : List Nat → K × T) :
    Nat → List Nat → List (K × T)
  | 0, _ => []
  | n + 1, msg => dec (msg.take size) :: deserializeLoop size dec n (msg.drop size)

/-- `_distributed_map_base::receivedLookupAnswerCallback`: computes
`element_count = count / sizeof(std::pair<K,T>)` and passes each
reinterpreted element to the lookup-answer callback in order; the result is
the list of pairs handed to the callback. -/
def receivedLookupAnswerCallback {K T : Type} (size : Nat)
    (dec : List Nat → K × T) (msg : List Nat) : List (K × T) :=
  deserializeLoop size dec (msg.length / size) msg

/-- C7: serialization round-trips across the message boundary: for every
fixed-size raw-byte encoding of the trivially-copyable pair type (an
encoding `enc` of exactly `sizeof(std::pair<K,T>)` bytes inverted by the
byte reinterpretation `dec`), deserializing the concatenated message
produced by the `sendPair` calls yields the original pairs in order. -/
theorem serialize_roundtrip {K T : Type} (size : Nat) (enc : K × T → List Nat)
    (dec : List Nat → K × T) (hsize : 0 < size)
    (hlen : ∀ p : K × T, (enc p).length = size)
    (hinv : ∀ p : K × T, dec (enc p) = p) (ps : List (K × T)) :
    receivedLookupAnswerCallback size dec (serializePairs enc ps) = ps := by
  induction ps with
  | nil =>
      simp [receivedLookupAnswerCallback, serializePairs, deserializeLoop,
        Nat.zero_div]
  | cons p t ih =>
      have hcat : serializePairs enc (p :: t)
          = enc p ++ serializePairs enc t := by
        simp [serializePairs]
      have hdiv : (enc p ++ serializePairs enc t).length / size
          = (serializePairs enc t).length / size + 1 := by
        rw [List.length_append, hlen p, Nat.add_comm,
          Nat.add_div_right _ hsize]
      rw [receivedLookupAnswerCallback, hcat, hdiv, deserializeLoop,
        List.take_left' (hlen p), List.drop_left' (hlen p), hinv p]
      rw [receivedLookupAnswerCallback] at ih
      rw [ih]

/-- Witness for C7: two-byte little-endian pairs of bytes round-trip: the
batch [(3,4),(5,6)] serializes to [3,4,5,6] and deserializes back. -/
theorem serialize_roundtrip_witness :
    (0 : Nat) < 2
    ∧ (∀ p : Nat × Nat, ([p.1, p.2] : List Nat).length = 2)
    ∧ (∀ p : Nat × Nat, ((fun l => (l.getD 0 0, l.getD 1 0))
        ([p.1, p.2] : List Nat)) = p)
    ∧ receivedLookupAnswerCallback 2 (fun l => (l.getD 0 0, l.getD 1 0))
        (serializePairs (fun p => [p.1, p.2]) [(3, 4), (5, 6)])
      = [(3, 4), (5, 6)] :=
  ⟨by decide, fun p => rfl, fun p => rfl,
    serialize_roundtrip 2 (fun p => [p.1, p.2])
      (fun l => (l.getD 0 0, l.getD 1 0)) (by decide) (fun p => rfl)
      (fun p => rfl) [(3, 4), (5, 6)]⟩

/-! ### Multimap populate/lookup round-trip (C1) -/

/-- Core count computation for the distribute-then-lookup pipeline: route
queries and pairs by `tr`, answer per rank, gather; every pair is answered
once per occurrence of its key among the queries, provided its rank is a
real rank (`tr x.1 < P`). -/
theorem count_distributed_lookup {K T : Type} [DecidableEq K]
    [DecidableEq T] (tr : K → Nat) (P : Nat) (batch : List (K × T))
    (qs : List K) (x : K × T) (htr : tr x.1 < P) :
    ((List.range P).flatMap (fun r =>
        (qs.filter (fun k => decide (tr k = r))).flatMap (fun k =>
          (batch.filter (fun p => decide (tr p.1 = r))).filter
            (fun p => decide (p.1 = k))))).count x
      = qs.count x.1 * batch.count x := by
  rw [count_flatMap]
  have hterm : ∀ r : Nat,
      ((qs.filter (fun k => decide (tr k = r))).flatMap (fun k =>
        (batch.filter (fun p => decide (tr p.1 = r))).filter
          (fun p => decide (p.1 = k)))).count x
      = if tr x.1 = r then qs.count x.1 * batch.count x else 0 := by
    intro r
    rw [count_flatMap]
    have hmap : ((qs.filter (fun k => decide (tr k = r))).map (fun k =>
        ((batch.filter (fun p => decide (tr p.1 = r))).filter
          (fun p => decide (p.1 = k))).count x))
        = (qs.filter (fun k => decide (tr k = r))).map (fun k =>
            if x.1 = k then
              (batch.filter (fun p => decide (tr p.1 = r))).count x
            else 0) := by
      apply List.map_congr_left
      intro k _
      rw [count_filter_ite]
      simp only [decide_eq_true_eq]
    rw [hmap, sum_map_ite_eq, count_filter_ite, count_filter_ite]
    by_cases htx : tr x.1 = r
    · simp [htx]
    · simp [htx]
  rw [List.map_congr_left (fun r _ => hterm r), sum_range_ite_eq, if_pos htr]

/-- Occurrence counts agree across any two lawful `BEq` instances. -/
theorem count_lawful_irrel {α : Type} {i1 i2 : BEq α}
    [h1 : @LawfulBEq α i1] [h2 : @LawfulBEq α i2] (x : α) (l : List α) :
    @List.count α i1 x l = @List.count α i2 x l := by
  induction l with
  | nil => rfl
  | cons a t ih =>
      rw [@List.count_cons α i1, @List.count_cons α i2, ih]
      by_cases hax : a = x
      · subst hax
        simp
      · simp [hax]

/-- Two lists with equal occurrence counts (under any lawful `BEq`) are
permutations of one another. -/
theorem perm_of_count {α : Type} {inst : BEq α} [@LawfulBEq α inst]
    [d : DecidableEq α] {l1 l2 : List α}
    (h : ∀ x : α, @List.count α inst x l1 = @List.count α inst x l2) :
    l1.Perm l2 := by
  rw [List.perm_iff_count]
  intro a
  have h1 : @List.count α (@instBEqOfDecidableEq α d) a l1
      = @List.count α inst a l1 :=
    @count_lawful_irrel α (@instBEqOfDecidableEq α d) inst
      inferInstance inferInstance a l1
  have h2 : @List.count α inst a l2
      = @List.count α (@instBEqOfDecidableEq α d) a l2 :=
    @count_lawful_irrel α inst (@instBEqOfDecidableEq α d)
      inferInstance inferInstance a l2
  exact h1.trans ((h a).trans h2)

/-- C1 (intended wiring; the source itself is ill-formed): the claim's
round trip holds for the insert path the spec documents: populating a fresh
distributed multimap with a batch and then looking up the batch's
(deduplicated) keys returns exactly the inserted pairs as a multiset —
every pair is stored by `receivedInsertCallback` on its owning rank and
answered exactly once by that rank's lookup callback.  In the source no
batch can be inserted at all: the constructor binds the nonexistent
`receivedCountCallback` for `INSERT_MPI_TAG`, so `distributed_multimap`
does not compile and `receivedInsertCallback` is dead code. -/
theorem multimap_populate_lookup {K T : Type} [DecidableEq K]
    [DecidableEq T] (sys : DistSystem K T) (batch : List (K × T))
    (hP : 0 < sys.commSize) (h0 : ∀ r : Nat, sys.locals r = []) :
    (↑(lookupAll (populate sys batch) ((batch.map Prod.fst).dedup))
        : Multiset (K × T))
      = (↑batch : Multiset (K × T)) := by
  have hshape : lookupAll (populate sys batch) ((batch.map Prod.fst).dedup)
      = (List.range sys.commSize).flatMap (fun r =>
          (((batch.map Prod.fst).dedup).filter
              (fun k => decide (getTargetRankSys sys k = r))).flatMap
            (fun k =>
              (batch.filter
                  (fun p => decide (getTargetRankSys sys p.1 = r))).filter
                (fun p => decide (p.1 = k)))) := by
    simp only [lookupAll, receivedLookupCallback, populate, getTargetRankSys,
      receivedInsertCallback, foldl_insertLocal, h0, List.nil_append]
  have hmid : ∀ x : K × T,
      List.count x (lookupAll (populate sys batch)
        ((batch.map Prod.fst).dedup)) = List.count x batch := by
    intro x
    rw [hshape, count_distributed_lookup (getTargetRankSys sys) sys.commSize
      batch ((batch.map Prod.fst).dedup) x
      (Nat.mod_lt (sys.hashFunct x.1) hP)]
    by_cases hxb : x ∈ batch
    · have hk : x.1 ∈ (batch.map Prod.fst).dedup :=
        List.mem_dedup.mpr (List.mem_map_of_mem Prod.fst hxb)
      rw [List.count_eq_one_of_mem (List.nodup_dedup _) hk, Nat.one_mul]
    · rw [List.count_eq_zero_of_not_mem hxb, Nat.mul_zero]
  exact Multiset.coe_eq_coe.mpr (perm_of_count hmid)

/-- Witness for C1: a 2-rank system (identity hash) populated with the
batch [(0,5),(1,6),(0,7),(3,8)]; looking up the deduplicated batch keys
[0,1,3] returns the batch as a multiset. -/
theorem multimap_populate_lookup_witness :
    0 < (DistSystem.mk 2 (fun n => n) (fun _ => []) : DistSystem Nat Nat
        ).commSize
    ∧ (↑(lookupAll
          (populate (DistSystem.mk 2 (fun n => n) (fun _ => [])
              : DistSystem Nat Nat)
            [(0, 5), (1, 6), (0, 7), (3, 8)])
          (([(0, 5), (1, 6), (0, 7), (3, 8)] : List (Nat × Nat)).map
              Prod.fst).dedup) : Multiset (Nat × Nat))
      = (↑([(0, 5), (1, 6), (0, 7), (3, 8)] : List (Nat × Nat))
          : Multiset (Nat × Nat)) :=
  ⟨by decide,
    multimap_populate_lookup (DistSystem.mk 2 (fun n => n) (fun _ => []))
      [(0, 5), (1, 6), (0, 7), (3, 8)] (by decide) (fun r => rfl)⟩

/-! ### Count histogram (`_distributed_map_base::countHistrogram`, C10) -/

/-- `getLocalCount` for the multimap container: `localMap.count(item.first)`,
the number of stored pairs with the given key. -/
def getLocalCountMM {K T : Type} [DecidableEq K] (lm : List (K × T))
    (k : K) : Nat :=
  (lm.filter (fun p => decide (p.1 = k))).length

/-- The distinct keys of the local container; the histogram loops are meant
to visit one representative element per group of identical keys by stepping
to the end of the current key's `equal_range`.  Defect in the source: the
stepping expression (part_001:227 and 247) applies `operator->` to the
`std::pair` returned by `equal_range`, which is ill-formed C++; this
definition models the evident `.second` intent of that group stepping
(equal keys are adjacent in an unordered container's iteration order). -/
def distinctKeys {K T : Type} [DecidableEq K] (lm : List (K × T)) : List K :=
  (lm.map Prod.fst).dedup

/-- The per-distinct-key counts the histogram loops are meant to visit
(one `getLocalCount` per distinct key), built on the repaired group
traversal of `distinctKeys` since the source's stepping expression is
ill-formed. -/
def perKeyCounts {K T : Type} [DecidableEq K] (lm : List (K × T)) :
    List Nat :=
  (distinctKeys lm).map (getLocalCountMM lm)

/-- The first loop of `countHistrogram`: `local_max_count`, the maximum
per-key count of the local container (0 when empty). -/
def localMaxCount {K T : Type} [DecidableEq K] (lm : List (K × T)) : Nat :=
  (perKeyCounts lm).foldl max 0

/-- The `MPI_Allreduce(MPI_MAX)` of the per-rank maxima: `all_max_count`. -/
def globalMaxCount {K T : Type} [DecidableEq K]
    (ranks : List (List (K × T))) : Nat :=
  (ranks.map localMaxCount).foldl max 0

/-- `local_count_hist[count]++`: read slot `count`, add one, store back. -/
def incrHist (hist : List Nat) (c : Nat) : List Nat :=
  hist.set c (hist.getD c 0 + 1)

/-- The second loop of `countHistrogram`: the local histogram, a vector of
`all_max_count + 1` zero-initialized slots incremented once per distinct
local key at the slot of its count. -/
def localCountHist {K T : Type} [DecidableEq K] (lm : List (K × T))
    (allMax : Nat) : List Nat :=
  (perKeyCounts lm).foldl incrHist (List.replicate (allMax + 1) 0)

/-- `_distributed_map_base::countHistrogram`, collectivized over all ranks:
each rank throws `std::range_error` when its `local_max_count` is at least
`std::numeric_limits<int>::max()`; otherwise the per-rank histograms (sized
by the `MPI_Allreduce(MPI_MAX)` of the maxima) are summed slotwise by
`MPI_Allreduce(MPI_SUM)`.  The source function is ill-formed as written
(its loops step with `equal_range(iter->first)->second`, `operator->` on a
`std::pair`; see `distinctKeys`), so this definition models the repaired
intended traversal.  Histogram slots are embedded as `Nat` where the source
accumulates C `int` slots; the embedding is faithful only while every slot
count (distinct keys per count value, summed over ranks) stays below
`INT_MAX`, which the source silently assumes. -/
def countHistrogram {K T : Type} [DecidableEq K]
    (ranks : List (List (K × T))) : Except String (List Nat) :=
  if ranks.all (fun lm => decide (localMaxCount lm < INT_MAX)) then
    Except.ok
      ((ranks.map (fun lm => localCountHist lm (globalMaxCount ranks))).foldl
        (List.zipWith (· + ·))
        (List.replicate (globalMaxCount ranks + 1) 0))
  else
    Except.error "Histrogram of counts: maximum count exceeds integer range"

/-- The histogram described by the specification: one slot per count
`c = 0 .. global max`, holding the number of distinct local keys of count
`c`, summed over all ranks. -/
def histogramSpec {K T : Type} [DecidableEq K]
    (ranks : List (List (K × T))) : List Nat :=
  (List.range (globalMaxCount ranks + 1)).map (fun c =>
    (ranks.map (fun lm => (perKeyCounts lm).count c)).sum)

/-- The base of a `max`-fold bounds from below. -/
theorem base_le_foldl_max (l : List Nat) :
    ∀ b : Nat, b ≤ l.foldl max b := by
  induction l with
  | nil => intro b; exact Nat.le_refl b
  | cons h t ih =>
      intro b
      exact Nat.le_trans (Nat.le_max_left b h) (ih (max b h))

/-- Every member of a list bounds its `max`-fold from below. -/
theorem mem_le_foldl_max (l : List Nat) :
    ∀ b a : Nat, a ∈ l → a ≤ l.foldl max b := by
  induction l with
  | nil => intro b a ha; cases ha
  | cons h t ih =>
      intro b a ha
      rcases List.mem_cons.mp ha with rfl | hat
      · exact Nat.le_trans (Nat.le_max_right b a) (base_le_foldl_max t _)
      · exact ih (max b h) a hat

/-- Incrementing a slot in range touches exactly that slot. -/
theorem getD_incrHist (hist : List Nat) :
    ∀ v c : Nat, v < hist.length →
      (incrHist hist v).getD c 0
        = if v = c then hist.getD c 0 + 1 else hist.getD c 0 := by
  induction hist with
  | nil => intro v c hv; cases hv
  | cons h t ih =>
      intro v c hv
      cases v with
      | zero =>
          cases c with
          | zero => simp [incrHist]
          | succ m => simp [incrHist]
      | succ n =>
          cases c with
          | zero => simp [incrHist, List.set_cons_succ]
          | succ m =>
              have hn : n < t.length := Nat.lt_of_succ_lt_succ hv
              have := ih n m hn
              simp only [incrHist, List.set_cons_succ, List.getD_cons_succ]
                at this ⊢
              rw [this]
              by_cases hnm : n = m
              · simp [hnm]
              · have : ¬ (n + 1 = m + 1) := fun hh =>
                  hnm (Nat.succ_injective hh)
                simp [hnm, this]

/-- Slot increments preserve the histogram length. -/
theorem length_incrHist (hist : List Nat) (c : Nat) :
    (incrHist hist c).length = hist.length :=
  List.length_set hist c _

/-- Folding slot increments preserves the histogram length. -/
theorem length_foldl_incrHist (vals : List Nat) :
    ∀ hist : List Nat, (vals.foldl incrHist hist).length = hist.length := by
  induction vals with
  | nil => intro hist; rfl
  | cons v t ih =>
      intro hist
      rw [List.foldl_cons, ih (incrHist hist v), length_incrHist]

/-- Folding slot increments over in-range values adds each value's
multiplicity to its slot. -/
theorem getD_foldl_incrHist (vals : List Nat) :
    ∀ hist : List Nat, (∀ v ∈ vals, v < hist.length) → ∀ c : Nat,
      (vals.foldl incrHist hist).getD c 0 = hist.getD c 0 + vals.count c := by
  induction vals with
  | nil => intro hist _ c; simp
  | cons v t ih =>
      intro hist hv c
      have hvlen : v < hist.length := hv v (List.mem_cons_self v t)
      have htlen : ∀ w ∈ t, w < (incrHist hist v).length := by
        intro w hw
        rw [length_incrHist]
        exact hv w (List.mem_cons_of_mem v hw)
      rw [List.foldl_cons, ih (incrHist hist v) htlen c,
        getD_incrHist hist v c hvlen, List.count_cons]
      by_cases hvc : v = c
      · simp [hvc, Nat.add_assoc, Nat.add_comm, Nat.add_left_comm]
      · simp [hvc]

/-- Slotwise `getD` of a same-length `zipWith (+)` is the sum of the
slotwise `getD`s. -/
theorem getD_zipWith_add (a : List Nat) :
    ∀ b : List Nat, a.length = b.length → ∀ c : Nat,
      (List.zipWith (· + ·) a b).getD c 0 = a.getD c 0 + b.getD c 0 := by
  induction a with
  | nil =>
      intro b hb c
      have : b = [] := by
        cases b with
        | nil => rfl
        | cons y ys => cases hb
      subst this
      simp
  | cons x xs ih =>
      intro b hb c
      cases b with
      | nil => cases hb
      | cons y ys =>
          have hlen : xs.length = ys.length := Nat.succ_injective hb
          cases c with
          | zero => simp
          | succ m =>
              simp only [List.zipWith_cons_cons, List.getD_cons_succ]
              exact ih ys hlen m

/-- Folding slotwise sums of same-length histograms: length is preserved and
each slot accumulates the slotwise sum. -/
theorem foldl_zipWith_add (hists : List (List Nat)) :
    ∀ (init : List Nat), (∀ h ∈ hists, h.length = init.length) →
      (hists.foldl (List.zipWith (· + ·)) init).length = init.length
      ∧ ∀ c : Nat, (hists.foldl (List.zipWith (· + ·)) init).getD c 0
          = init.getD c 0 + (hists.map (fun h => h.getD c 0)).sum := by
  induction hists with
  | nil => intro init _; exact ⟨rfl, fun c => by simp⟩
  | cons h t ih =>
      intro init hlen
      have hh : h.length = init.length := hlen h (List.mem_cons_self h t)
      have hz : (List.zipWith (· + ·) init h).length = init.length := by
        rw [List.length_zipWith, hh]
        exact Nat.min_self _
      have ht : ∀ g ∈ t, g.length = (List.zipWith (· + ·) init h).length := by
        intro g hg
        rw [hz]
        exact hlen g (List.mem_cons_of_mem h hg)
      obtain ⟨ihl, ihd⟩ := ih (List.zipWith (· + ·) init h) ht
      refine ⟨by rw [List.foldl_cons, ihl, hz], fun c => ?_⟩
      rw [List.foldl_cons, ihd c, getD_zipWith_add init h hh.symm c,
        List.map_cons, List.sum_cons, Nat.add_assoc]

/-- Every per-key count is bounded by the local maximum count. -/
theorem perKeyCounts_le_localMax {K T : Type} [DecidableEq K]
    (lm : List (K × T)) (v : Nat) (hv : v ∈ perKeyCounts lm) :
    v ≤ localMaxCount lm :=
  mem_le_foldl_max (perKeyCounts lm) 0 v hv

/-- Every rank's local maximum count is bounded by the global maximum. -/
theorem localMax_le_globalMax {K T : Type} [DecidableEq K]
    (ranks : List (List (K × T))) (lm : List (K × T)) (h : lm ∈ ranks) :
    localMaxCount lm ≤ globalMaxCount ranks :=
  mem_le_foldl_max (ranks.map localMaxCount) 0 (localMaxCount lm)
    (List.mem_map_of_mem localMaxCount h)

/-- Counts above the global maximum occur at no rank. -/
theorem count_perKeyCounts_eq_zero {K T : Type} [DecidableEq K]
    (ranks : List (List (K × T))) (lm : List (K × T)) (h : lm ∈ ranks)
    (c : Nat) (hc : globalMaxCount ranks < c) :
    (perKeyCounts lm).count c = 0 := by
  rw [List.count_eq_zero]
  intro hmem
  exact Nat.not_le.mpr hc
    (Nat.le_trans (perKeyCounts_le_localMax lm c hmem)
      (localMax_le_globalMax ranks lm h))

/-- A zero-filled histogram reads 0 at every slot. -/
theorem getD_replicate_zero :
    ∀ n k : Nat, (List.replicate n (0 : Nat)).getD k 0 = 0 := by
  intro n
  induction n with
  | zero => intro k; simp
  | succ m ih =>
      intro k
      cases k with
      | zero => simp [List.replicate_succ]
      | succ j => simp [List.replicate_succ, ih j]

/-- The specification histogram has one slot per count 0..global max. -/
theorem length_histogramSpec {K T : Type} [DecidableEq K]
    (ranks : List (List (K × T))) :
    (histogramSpec ranks).length = globalMaxCount ranks + 1 := by
  rw [histogramSpec, List.length_map, List.length_range]

/-- Slot `c` of the specification histogram is the number of distinct local
keys of count `c`, summed over all ranks (0 beyond the global maximum). -/
theorem getD_histogramSpec {K T : Type} [DecidableEq K]
    (ranks : List (List (K × T))) (c : Nat) :
    (histogramSpec ranks).getD c 0
      = (ranks.map (fun lm => (perKeyCounts lm).count c)).sum := by
  by_cases hc : c < globalMaxCount ranks + 1
  · have hlt : c < (histogramSpec ranks).length := by
      rw [length_histogramSpec]
      exact hc
    rw [List.getD_eq_getElem _ 0 hlt]
    simp only [histogramSpec, List.getElem_map, List.getElem_range]
  · have hge : (histogramSpec ranks).length ≤ c := by
      rw [length_histogramSpec]
      exact Nat.not_lt.mp hc
    rw [List.getD_eq_default _ 0 hge]
    symm
    apply List.sum_eq_zero
    intro x hx
    rw [List.mem_map] at hx
    obtain ⟨lm, hlm, rfl⟩ := hx
    exact count_perKeyCounts_eq_zero ranks lm hlm c
      (Nat.lt_of_succ_le (Nat.not_lt.mp hc))

/-- The slotwise `MPI_SUM` of the per-rank increment-built histograms equals
the specification histogram. -/
theorem fold_localHists_eq_spec {K T : Type} [DecidableEq K]
    (ranks : List (List (K × T))) :
    (ranks.map (fun lm => localCountHist lm (globalMaxCount ranks))).foldl
        (List.zipWith (· + ·))
        (List.replicate (globalMaxCount ranks + 1) 0)
      = histogramSpec ranks := by
  have hhists : ∀ h ∈ ranks.map
      (fun lm => localCountHist lm (globalMaxCount ranks)),
      h.length = (List.replicate (globalMaxCount ranks + 1) (0 : Nat)).length
      := by
    intro h hh
    rw [List.mem_map] at hh
    obtain ⟨lm, hlm, rfl⟩ := hh
    rw [List.length_replicate, localCountHist, length_foldl_incrHist,
      List.length_replicate]
  obtain ⟨hfl, hfd⟩ := foldl_zipWith_add
    (ranks.map (fun lm => localCountHist lm (globalMaxCount ranks)))
    (List.replicate (globalMaxCount ranks + 1) 0) hhists
  apply List.ext_getElem
  · rw [hfl, List.length_replicate, length_histogramSpec]
  · intro n h1 h2
    rw [← List.getD_eq_getElem _ 0 h1, ← List.getD_eq_getElem _ 0 h2,
      hfd n, getD_replicate_zero, Nat.zero_add, getD_histogramSpec,
      List.map_map]
    apply congrArg List.sum
    apply List.map_congr_left
    intro lm hlm
    simp only [Function.comp_apply]
    have hbound : ∀ v ∈ perKeyCounts lm,
        v < (List.replicate (globalMaxCount ranks + 1) (0 : Nat)).length := by
      intro v hv
      rw [List.length_replicate]
      exact Nat.lt_succ_of_le
        (Nat.le_trans (perKeyCounts_le_localMax lm v hv)
          (localMax_le_globalMax ranks lm hlm))
    rw [localCountHist, getD_foldl_incrHist _ _ hbound n,
      getD_replicate_zero, Nat.zero_add]

/-- C10 (intended behavior; the source function is ill-formed): the claim's
description holds for the repaired traversal: the collective
`countHistrogram` raises the range error exactly when some rank's largest
per-key count is at least the maximum int value; otherwise it returns the
histogram of length global-maximum-count + 1 whose slot `c` holds the
number of distinct local keys of count `c`, summed over all ranks.  The
source function itself cannot compile or be called: its loops apply
`operator->` to the `std::pair` returned by `equal_range`
(part_001:227, 247). -/
theorem countHistrogram_spec {K T : Type} [DecidableEq K]
    (ranks : List (List (K × T))) (c : Nat) :
    countHistrogram ranks
      = (if ∀ lm ∈ ranks, localMaxCount lm < INT_MAX then
          Except.ok (histogramSpec ranks)
        else Except.error
          "Histrogram of counts: maximum count exceeds integer range")
    ∧ (histogramSpec ranks).length = globalMaxCount ranks + 1
    ∧ (histogramSpec ranks).getD c 0
        = (ranks.map (fun lm => (perKeyCounts lm).count c)).sum := by
  refine ⟨?_, length_histogramSpec ranks, getD_histogramSpec ranks c⟩
  by_cases hall : ∀ lm ∈ ranks, localMaxCount lm < INT_MAX
  · have hb : (ranks.all fun lm => decide (localMaxCount lm < INT_MAX))
        = true := by
      rw [List.all_eq_true]
      intro lm hlm
      exact decide_eq_true (hall lm hlm)
    rw [if_pos hall]
    simp only [countHistrogram]
    rw [if_pos hb, fold_localHists_eq_spec]
  · have hb : ¬ ((ranks.all fun lm => decide (localMaxCount lm < INT_MAX))
        = true) := by
      rw [List.all_eq_true]
      intro hcon
      apply hall
      intro lm hlm
      exact of_decide_eq_true (hcon lm hlm)
    rw [if_neg hall]
    simp only [countHistrogram]
    rw [if_neg hb]

end Bliss
